import Mathlib

/-!
Verification of the active scheduling queue with in-flight event tracking
(`pkg/scheduler/internal/queue/active_queue.go`).

The Go code is shallowly embedded: the `activeQueue` struct becomes the
`AQ` record, its methods become pure state-passing functions, the
doubly-linked `inFlightEvents` list becomes a list of (node-id, entry)
pairs where node ids play the role of `*list.Element` references, and the
`inFlightPods` map becomes an association list from pod UID to node id.
The heap (`pkg/scheduler/internal/heap`) and `QueuedPodInfo.Update` are
not part of the sources at hand; they are modelled from the spec, as
marked on their definitions.
-/

namespace ActiveQueue

/-- Pod: identified by its `UID` (an opaque identifier, modelled as `Nat`);
`priority` stands for the priority-relevant data read by the caller-supplied
comparator. -/
structure Pod where
  uid : Nat
  priority : Nat
  deriving DecidableEq, Repr

/-- `framework.QueuedPodInfo`: the unit stored in the heap.  `attempts` is
incremented on each pop; the two plugin-name sets are cleared on pop. -/
structure QueuedPodInfo where
  pod : Pod
  attempts : Nat
  unschedulablePlugins : List String
  pendingPlugins : List String
  deriving DecidableEq, Repr

/-- Objects carried by cluster events (`interface{}` in Go): either a pod
or some other opaque object. -/
inductive Obj where
  | podObj (p : Pod)
  | other (n : Nat)
  deriving DecidableEq, Repr

/-- `clusterEvent`: `{event, oldObj, newObj}`; the event kind
(`framework.ClusterEvent`) is opaque to the queue and modelled as `Nat`. -/
structure ClusterEvt where
  event : Nat
  oldObj : Obj
  newObj : Obj
  deriving DecidableEq, Repr

/-- An entry of the `inFlightEvents` list: either an in-flight pod marker
(value `*v1.Pod` in Go) or a recorded cluster event (value `*clusterEvent`). -/
inductive Entry where
  | podMarker (p : Pod)
  | eventRecord (c : ClusterEvt)
  deriving DecidableEq, Repr

/-- The timeline: the `container/list` doubly linked list, with each node
tagged by a unique id standing for its `*list.Element` reference. -/
abbrev Timeline := List (Nat × Entry)

/-- A comparator, supplied at construction of the heap (`less`). -/
abbrev Cmp := QueuedPodInfo → QueuedPodInfo → Bool

/-- Modelled from the spec: the heap keys items by the pod UID
(`key(item) UID`). -/
def key (pInfo : QueuedPodInfo) : Nat := pInfo.pod.uid

/-- Modelled from the spec: heap `Get` — O(1) lookup by `key(item)`
(code of `pkg/scheduler/internal/heap` is not among the sources). -/
def heapGet (pInfo : QueuedPodInfo) (q : List QueuedPodInfo) : Option QueuedPodInfo :=
  q.find? (fun x => key x = key pInfo)

/-- Modelled from the spec: heap `Has` — membership by key. -/
def heapHas (pInfo : QueuedPodInfo) (q : List QueuedPodInfo) : Bool :=
  (heapGet pInfo q).isSome

/-- Modelled from the spec: heap `AddOrUpdate` — if `key(item)` is absent,
insert; if present, replace the value and re-sift (the sift is internal to
the heap and not content-visible in this list model). -/
def heapAddOrUpdate (item : QueuedPodInfo) (q : List QueuedPodInfo) : List QueuedPodInfo :=
  if q.any (fun x => key x = key item) then
    q.map (fun x => if key x = key item then item else x)
  else
    q ++ [item]

/-- Modelled from the spec: heap `Delete` — removal by `key(item)`, failing
with `NotFound` if absent. -/
def heapDelete (pInfo : QueuedPodInfo) (q : List QueuedPodInfo) :
    Except Unit (List QueuedPodInfo) :=
  if q.any (fun x => key x = key pInfo) then
    .ok (q.filter (fun x => key x ≠ key pInfo))
  else
    .error ()

/-- Select the minimum under the comparator out of a non-empty collection,
returning it together with the remaining items. -/
def selectMin (less : Cmp) : QueuedPodInfo → List QueuedPodInfo →
    QueuedPodInfo × List QueuedPodInfo
  | m, [] => (m, [])
  | m, y :: ys =>
    if less y m then
      let r := selectMin less y ys
      (r.1, m :: r.2)
    else
      let r := selectMin less m ys
      (r.1, y :: r.2)

/-- Modelled from the spec: heap `Pop` — remove and return the minimum under
the comparator; fails with `Empty` iff the heap is empty. -/
def heapPop (less : Cmp) (q : List QueuedPodInfo) :
    Option (QueuedPodInfo × List QueuedPodInfo) :=
  match q with
  | [] => none
  | x :: xs => some (selectMin less x xs)

/-- `int64` wrap-around for the `schedCycle` counter. -/
def wrap64 (x : Int) : Int := (x + 2 ^ 63) % 2 ^ 64 - 2 ^ 63

/-- The `activeQueue` struct: heap, in-flight pod map (UID → node id of the
pod's marker), in-flight event timeline, fresh node-id counter (standing for
allocation of `*list.Element`s), scheduling-cycle counter (`int64`), `closed`
flag and the `isSchedulingQueueHintEnabled` feature gate. -/
structure AQ where
  queue : List QueuedPodInfo
  inFlightPods : List (Nat × Nat)
  inFlightEvents : Timeline
  nextId : Nat
  schedCycle : Int
  closed : Bool
  isSchedulingQueueHintEnabled : Bool
  deriving DecidableEq, Repr

/-- Association-list lookup for `inFlightPods` (Go map read). -/
def mapGet (u : Nat) : List (Nat × Nat) → Option Nat
  | [] => none
  | (k, v) :: rest => if k = u then some v else mapGet u rest

/-- Go map `delete(m, u)`. -/
def mapDel (u : Nat) : List (Nat × Nat) → List (Nat × Nat)
  | [] => []
  | (k, v) :: rest => if k = u then mapDel u rest else (k, v) :: mapDel u rest

/-- Go map assignment `m[u] = v` (overwrites any previous binding). -/
def mapSet (u v : Nat) (m : List (Nat × Nat)) : List (Nat × Nat) :=
  (u, v) :: mapDel u m

/-- `list.Remove(elem)`: remove the node with the given id from the
timeline. -/
def removeId (i : Nat) : Timeline → Timeline
  | [] => []
  | e :: rest => if e.1 = i then rest else e :: removeId i rest

/-- The head-pruning loop of `done`: repeatedly remove the front entry while
it is a `*clusterEvent`; stop at the first pod marker or the empty list. -/
def prune : Timeline → Timeline
  | [] => []
  | (_, .eventRecord _) :: rest => prune rest
  | (i, .podMarker p) :: rest => (i, .podMarker p) :: rest

/-- `newActiveQueue(queue, isSchedulingQueueHintEnabled)`. -/
def newActiveQueue (q : List QueuedPodInfo) (hints : Bool) : AQ :=
  { queue := q
    inFlightPods := []
    inFlightEvents := []
    nextId := 0
    schedCycle := 0
    closed := false
    isSchedulingQueueHintEnabled := hints }

/-- Modelled from the spec: `QueuedPodInfo.Update(newPod)` (framework code
not among the sources) — update the internal pod pointer to `newPod`,
recomputing priority-related fields from it. -/
def podInfoUpdate (pInfo : QueuedPodInfo) (newPod : Pod) : QueuedPodInfo :=
  { pInfo with pod := newPod }

/-- `activeQueue.update(newPod, oldPodInfo)`: if an entry with
`key(oldPodInfo)` exists in the heap, mutate it in place to reflect `newPod`
(`pInfo.Update`), re-sift via `AddOrUpdate`, and return it; otherwise return
nil and leave the heap unchanged. -/
def update (newPod : Pod) (oldPodInfo : QueuedPodInfo) (aq : AQ) :
    Option QueuedPodInfo × AQ :=
  match heapGet oldPodInfo aq.queue with
  | some pInfo =>
    let pInfo' := podInfoUpdate pInfo newPod
    -- the in-place mutation of the heap-held pointer, then AddOrUpdate
    let q1 := aq.queue.map (fun x => if key x = key oldPodInfo then pInfo' else x)
    (some pInfo', { aq with queue := heapAddOrUpdate pInfo' q1 })
  | none => (none, aq)

/-- `activeQueue.delete(pInfo)`: delegate to the heap; errors surface and
leave the state unchanged. -/
def deleteAQ (pInfo : QueuedPodInfo) (aq : AQ) : Except Unit Unit × AQ :=
  match heapDelete pInfo aq.queue with
  | .ok q' => (.ok (), { aq with queue := q' })
  | .error e => (.error e, aq)

/-- Outcome of a `pop` attempt: a popped pod, the closed-queue `(nil, nil)`
return, entering `cond.Wait` (queue empty and not closed), or the error
return of the heap's `Pop`. -/
inductive PopOutcome where
  | popped (p : QueuedPodInfo)
  | closedNil
  | wouldBlock
  | errOut
  deriving DecidableEq, Repr

/-- The body of `pop` after the wait loop has found the heap non-empty:
`queue.Pop()`, `Attempts++`, `schedCycle++`, marker push when the hints
feature gate is on, then clearing of the plugin sets. -/
def popNonEmpty (less : Cmp) (aq : AQ) : PopOutcome × AQ :=
  match heapPop less aq.queue with
  | none => (.errOut, aq)
  | some (pInfo, q') =>
    let p1 : QueuedPodInfo := { pInfo with attempts := pInfo.attempts + 1 }
    let cyc := wrap64 (aq.schedCycle + 1)
    let p2 : QueuedPodInfo := { p1 with unschedulablePlugins := [], pendingPlugins := [] }
    if aq.isSchedulingQueueHintEnabled then
      (.popped p2,
        { aq with
          queue := q'
          schedCycle := cyc
          inFlightPods := mapSet p1.pod.uid aq.nextId aq.inFlightPods
          inFlightEvents := aq.inFlightEvents ++ [(aq.nextId, .podMarker p1.pod)]
          nextId := aq.nextId + 1 })
    else
      (.popped p2, { aq with queue := q', schedCycle := cyc })

/-- One pass of `activeQueue.pop`: if the heap is empty, return `(nil, nil)`
when closed, otherwise enter `cond.Wait` (`wouldBlock`); if non-empty,
proceed to the pop body. -/
def popOnce (less : Cmp) (aq : AQ) : PopOutcome × AQ :=
  if aq.queue.length = 0 then
    if aq.closed then (.closedNil, aq) else (.wouldBlock, aq)
  else
    popNonEmpty less aq

/-- The full `pop` wait loop.  `wakeups` lists the queue states observed
after each return from `cond.Wait` (other threads mutated the state while
the lock was released; an unchanged state is a spurious wake-up).  The loop
re-checks `queue.Len() == 0` and `closed` on every iteration; with no
further wake-up available the caller stays blocked in `Wait`. -/
def popLoop (less : Cmp) (aq : AQ) : List AQ → PopOutcome × AQ
  | [] =>
    if aq.queue.length = 0 then
      if aq.closed then (.closedNil, aq) else (.wouldBlock, aq)
    else
      popNonEmpty less aq
  | w :: ws =>
    if aq.queue.length = 0 then
      if aq.closed then (.closedNil, aq) else popLoop less w ws
    else
      popNonEmpty less aq

/-- Collect the `*clusterEvent` values of a timeline segment, skipping pod
markers (the walk of `clusterEventsForPod`). -/
def collectEvents : Timeline → List ClusterEvt
  | [] => []
  | (_, .eventRecord c) :: rest => c :: collectEvents rest
  | (_, .podMarker _) :: rest => collectEvents rest

/-- Walk the timeline from the node after the one with id `i`
(`inFlightPod.Next()`), collecting cluster events. -/
def eventsAfterId (i : Nat) : Timeline → List ClusterEvt
  | [] => []
  | (j, _) :: rest => if j = i then collectEvents rest else eventsAfterId i rest

/-- `activeQueue.clusterEventsForPod(logger, pInfo)`: fail with the
not-in-flight error when `pInfo.Pod.UID` is not a key of `inFlightPods`;
otherwise collect every cluster event recorded after the pod's marker.
The method only reads the state (it takes the read lock). -/
def clusterEventsForPod (aq : AQ) (pInfo : QueuedPodInfo) :
    Except Unit (List ClusterEvt) :=
  match mapGet pInfo.pod.uid aq.inFlightPods with
  | none => .error ()
  | some i => .ok (eventsAfterId i aq.inFlightEvents)

/-- `activeQueue.addEventIfPodInFlight(oldPod, newPod, event)`: push the
event record iff `newPod.UID` is a key of `inFlightPods`. -/
def addEventIfPodInFlight (oldPod newPod : Pod) (event : Nat) (aq : AQ) :
    Bool × AQ :=
  match mapGet newPod.uid aq.inFlightPods with
  | some _ =>
    (true,
      { aq with
        inFlightEvents :=
          aq.inFlightEvents ++
            [(aq.nextId, .eventRecord ⟨event, .podObj oldPod, .podObj newPod⟩)]
        nextId := aq.nextId + 1 })
  | none => (false, aq)

/-- `activeQueue.addEventIfAnyInFlight(oldObj, newObj, event)`: push the
event record iff `inFlightPods` is non-empty. -/
def addEventIfAnyInFlight (oldObj newObj : Obj) (event : Nat) (aq : AQ) :
    Bool × AQ :=
  if aq.inFlightPods.length ≠ 0 then
    (true,
      { aq with
        inFlightEvents :=
          aq.inFlightEvents ++ [(aq.nextId, .eventRecord ⟨event, oldObj, newObj⟩)]
        nextId := aq.nextId + 1 })
  else
    (false, aq)

/-- `activeQueue.schedulingCycle()`. -/
def schedulingCycle (aq : AQ) : Int := aq.schedCycle

/-- `activeQueue.done(pod)`: return unchanged when the UID is not in flight;
otherwise delete the map entry, remove the pod's marker node from the
timeline, and prune leading event records from the head. -/
def done (u : Nat) (aq : AQ) : AQ :=
  match mapGet u aq.inFlightPods with
  | none => aq
  | some i =>
    { aq with
      inFlightPods := mapDel u aq.inFlightPods
      inFlightEvents := prune (removeId i aq.inFlightEvents) }

/-- `activeQueue.close()`: set `closed`. -/
def close (aq : AQ) : AQ := { aq with closed := true }

/-- The public mutating operations, for reasoning about operation
sequences.  `addOrUpdate` is the producer path exposed through
`underLock` (`unlockedActiveQueuer.AddOrUpdate`). -/
inductive Op where
  | update (newPod : Pod) (oldPodInfo : QueuedPodInfo)
  | del (pInfo : QueuedPodInfo)
  | pop
  | addOrUpdate (pInfo : QueuedPodInfo)
  | addIfPod (oldPod newPod : Pod) (event : Nat)
  | addIfAny (oldObj newObj : Obj) (event : Nat)
  | done (u : Nat)
  | close
  deriving DecidableEq, Repr

/-- State transition of one operation (outputs discarded; a `pop` that
would block or observes the closed queue leaves the state unchanged). -/
def step (less : Cmp) (aq : AQ) : Op → AQ
  | .update newPod old => (update newPod old aq).2
  | .del pInfo => (deleteAQ pInfo aq).2
  | .pop => (popOnce less aq).2
  | .addOrUpdate pInfo => { aq with queue := heapAddOrUpdate pInfo aq.queue }
  | .addIfPod o n e => (addEventIfPodInFlight o n e aq).2
  | .addIfAny o n e => (addEventIfAnyInFlight o n e aq).2
  | .done u => done u aq
  | .close => close aq

/-- Run a sequence of operations. -/
def run (less : Cmp) (aq : AQ) : List Op → AQ
  | [] => aq
  | op :: rest => run less (step less aq op) rest

/-- 1 when the operation is a pop that returns a pod in state `aq`,
0 otherwise. -/
def popHappened (less : Cmp) (aq : AQ) (op : Op) : Nat :=
  match op with
  | .pop =>
    match (popOnce less aq).1 with
    | .popped _ => 1
    | _ => 0
  | _ => 0

/-- Number of successful pops (pops that returned a pod) along a run. -/
def countPops (less : Cmp) (aq : AQ) : List Op → Nat
  | [] => 0
  | op :: rest => popHappened less aq op + countPops less (step less aq op) rest

/-- The queue with the entry keyed like `old` replaced by `new`: the shape
of the heap after `update` finds the entry. -/
def replaceByKey (old new : QueuedPodInfo) (q : List QueuedPodInfo) :
    List QueuedPodInfo :=
  q.map (fun x => if key x = key old then new else x)

/-- The node ids of a timeline. -/
def idsOf (tl : Timeline) : List Nat := tl.map Prod.fst

/-- Whether a timeline node is the in-flight marker of UID `u` at node id
`i`. -/
def isMarkerFor (u i : Nat) (f : Nat × Entry) : Bool :=
  f.1 == i &&
    (match f.2 with
     | .podMarker p => p.uid == u
     | .eventRecord _ => false)

/-- Well-formedness of the in-flight bookkeeping: node ids are distinct and
below the allocation counter, and every `inFlightPods` entry points at a
marker node of its UID in the timeline (the map values are `*list.Element`
references into `inFlightEvents`). -/
def WF (aq : AQ) : Prop :=
  (idsOf aq.inFlightEvents).Nodup ∧
  (∀ f ∈ aq.inFlightEvents, f.1 < aq.nextId) ∧
  (∀ e ∈ aq.inFlightPods, aq.inFlightEvents.any (isMarkerFor e.1 e.2) = true)

/-- A timeline node is owned: if it is a pod marker, `inFlightPods` maps
its UID to it. -/
def markerOwnedOne (aq : AQ) (f : Nat × Entry) : Bool :=
  match f.2 with
  | .podMarker p => mapGet p.uid aq.inFlightPods == some f.1
  | .eventRecord _ => true

/-- Whether the timeline head, if any, is a pod marker. -/
def headIsMarker : Timeline → Bool
  | [] => true
  | (_, .podMarker _) :: _ => true
  | (_, .eventRecord _) :: _ => false

/-- The reachable-state invariant: well-formed ids, every marker owned by
the in-flight map, and the head of the timeline (if any) a pod marker. -/
def Inv (aq : AQ) : Prop :=
  WF aq ∧ (∀ f ∈ aq.inFlightEvents, markerOwnedOne aq f = true) ∧
  headIsMarker aq.inFlightEvents = true

/-- The operation neither calls `done(u)` nor pops the pod with UID `u`
(so `u`, if in flight, stays in flight with the same marker). -/
def avoidsU (u : Nat) (less : Cmp) (aq : AQ) : Op → Bool
  | .done v => v != u
  | .pop =>
    match heapPop less aq.queue with
    | some (p, _) => p.pod.uid != u
    | none => true
  | _ => true

/-- Every operation along the run avoids `u` (no `done(u)`, no re-pop of
`u`). -/
def safeRun (u : Nat) (less : Cmp) : AQ → List Op → Bool
  | _, [] => true
  | aq, op :: rest => avoidsU u less aq op && safeRun u less (step less aq op) rest

/-- The cluster events an operation actually appends to the timeline in
state `aq` (empty for every operation but a successful
`addEventIfPodInFlight` / `addEventIfAnyInFlight`). -/
def stepAppends (aq : AQ) : Op → List ClusterEvt
  | .addIfPod o n e =>
    if (mapGet n.uid aq.inFlightPods).isSome then [⟨e, .podObj o, .podObj n⟩] else []
  | .addIfAny o n e =>
    if aq.inFlightPods.length ≠ 0 then [⟨e, o, n⟩] else []
  | _ => []

/-- All cluster events appended along a run, in append (timeline) order. -/
def appendedEvents (less : Cmp) : AQ → List Op → List ClusterEvt
  | _, [] => []
  | aq, op :: rest => stepAppends aq op ++ appendedEvents less (step less aq op) rest

/-- The operation, if a pop, pops a pod that is not currently in flight
(the callers' contract: a pod is re-enqueued only after `done`). -/
def freshPop (less : Cmp) (aq : AQ) : Op → Bool
  | .pop =>
    match heapPop less aq.queue with
    | some (p, _) => (mapGet p.pod.uid aq.inFlightPods).isNone
    | none => true
  | _ => true

/-- Every pop along the run pops a pod that is not already in flight. -/
def freshRun (less : Cmp) : AQ → List Op → Bool
  | _, [] => true
  | aq, op :: rest => freshPop less aq op && freshRun less (step less aq op) rest

/-- Which operation bodies contain a `cond.Wait`, and in which states they
reach it: only `pop` waits, and only when the heap is empty and the queue is
not closed.  Every other method of `activeQueue` is wait-free. -/
def opBlocks (op : Op) (aq : AQ) : Bool :=
  match op with
  | .pop => (aq.queue.length == 0) && !aq.closed
  | _ => false

/-! ### Concrete fixtures for witnesses and counterexamples -/

/-- A concrete comparator: order by priority. -/
def lessP : Cmp := fun a b => Nat.blt a.pod.priority b.pod.priority

def podA : Pod := ⟨1, 3⟩

def podB : Pod := ⟨2, 5⟩

def qpiA : QueuedPodInfo := ⟨podA, 0, [], []⟩

def qpiB : QueuedPodInfo := ⟨podB, 0, [], []⟩

/-! ### Map helper lemmas -/

theorem mapGet_mapDel_self (u : Nat) (m : List (Nat × Nat)) :
    mapGet u (mapDel u m) = none := by
  induction m with
  | nil => rfl
  | cons e rest ih =>
    obtain ⟨k, v⟩ := e
    by_cases hk : k = u
    · simp [mapDel, hk, ih]
    · simp [mapDel, hk, mapGet, ih]

theorem mapGet_mapDel_ne (u w : Nat) (hne : w ≠ u) (m : List (Nat × Nat)) :
    mapGet w (mapDel u m) = mapGet w m := by
  induction m with
  | nil => rfl
  | cons e rest ih =>
    obtain ⟨k, v⟩ := e
    by_cases hk : k = u
    · subst hk
      have hkw : ¬k = w := fun h => hne h.symm
      simp [mapDel, mapGet, hkw, ih]
    · by_cases hw : k = w
      · simp [mapDel, hk, mapGet, hw, hne]
      · simp [mapDel, hk, mapGet, hw, ih]

theorem mapGet_mapSet_self (u v : Nat) (m : List (Nat × Nat)) :
    mapGet u (mapSet u v m) = some v := by
  simp [mapSet, mapGet]

theorem mapGet_mapSet_ne (u v w : Nat) (hne : w ≠ u) (m : List (Nat × Nat)) :
    mapGet w (mapSet u v m) = mapGet w m := by
  simp only [mapSet, mapGet]
  rw [if_neg (fun h : u = w => hne h.symm), mapGet_mapDel_ne u w hne]

theorem mapGet_mem {u i : Nat} {m : List (Nat × Nat)}
    (h : mapGet u m = some i) : (u, i) ∈ m := by
  induction m with
  | nil => simp [mapGet] at h
  | cons e rest ih =>
    obtain ⟨k, v⟩ := e
    by_cases hk : k = u
    · subst hk
      simp [mapGet] at h
      simp [h]
    · simp [mapGet, hk] at h
      exact List.mem_cons_of_mem _ (ih h)

/-! ### Helper lemmas about pop -/

theorem popNonEmpty_spec (less : Cmp) (aq : AQ) (h : aq.queue.length ≠ 0) :
    ∃ p, (popNonEmpty less aq).1 = PopOutcome.popped p := by
  cases hq : aq.queue with
  | nil => exact absurd (by simp [hq]) h
  | cons x xs =>
    simp only [popNonEmpty, heapPop, hq]
    by_cases hint : aq.isSchedulingQueueHintEnabled <;> simp [hint]

/-! ### Claim theorems -/

/-- C5: `update(newPod, oldPodInfo)` never inserts.  If no heap entry with
`key(oldPodInfo)` exists, it returns nil and leaves the whole state
unchanged; if one exists (and the caller respects the key-stability
contract, i.e. `newPod` carries the same UID), the entry is mutated to
reflect `newPod`, re-sifted, and returned, and the heap's size is
unchanged. -/
theorem update_never_inserts (newPod : Pod) (old : QueuedPodInfo) (aq : AQ) :
    (heapGet old aq.queue = none → update newPod old aq = (none, aq)) ∧
    (∀ pInfo, heapGet old aq.queue = some pInfo → newPod.uid = old.pod.uid →
      update newPod old aq =
        (some (podInfoUpdate pInfo newPod),
          { aq with queue := replaceByKey old (podInfoUpdate pInfo newPod) aq.queue }) ∧
      (update newPod old aq).2.queue.length = aq.queue.length) := by
  constructor
  · intro h
    simp [update, h]
  · intro pInfo h hk
    have hkey : key (podInfoUpdate pInfo newPod) = key old := by
      simp [podInfoUpdate, key, hk]
    have hmem : pInfo ∈ aq.queue := List.mem_of_find?_eq_some h
    have hpk : key pInfo = key old := by
      have h2 := List.find?_some h
      simpa using h2
    have hmem1 : podInfoUpdate pInfo newPod ∈
        replaceByKey old (podInfoUpdate pInfo newPod) aq.queue := by
      rw [replaceByKey, List.mem_map]
      exact ⟨pInfo, hmem, by simp [hpk]⟩
    have hany : (replaceByKey old (podInfoUpdate pInfo newPod) aq.queue).any
        (fun x => key x = key (podInfoUpdate pInfo newPod)) = true := by
      rw [List.any_eq_true]
      exact ⟨podInfoUpdate pInfo newPod, hmem1, by simp⟩
    have haou : heapAddOrUpdate (podInfoUpdate pInfo newPod)
        (replaceByKey old (podInfoUpdate pInfo newPod) aq.queue) =
        replaceByKey old (podInfoUpdate pInfo newPod) aq.queue := by
      rw [heapAddOrUpdate, if_pos hany]
      rw [replaceByKey, List.map_map]
      apply List.map_congr_left
      intro a _
      by_cases ha : key a = key old
      · simp [Function.comp, ha]
      · simp [Function.comp, ha, hkey]
    have hupd : update newPod old aq =
        (some (podInfoUpdate pInfo newPod),
          { aq with queue := replaceByKey old (podInfoUpdate pInfo newPod) aq.queue }) := by
      simp only [update, h]
      rw [← replaceByKey, haou]
    refine ⟨hupd, ?_⟩
    rw [hupd]
    simp [replaceByKey]

/-- Witness for C5: updating the one queued pod in a singleton heap mutates
it in place; the heap size stays 1. -/
theorem update_never_inserts_witness :
    update ⟨1, 9⟩ qpiA (newActiveQueue [qpiA] true) =
      (some (podInfoUpdate qpiA ⟨1, 9⟩),
        { newActiveQueue [qpiA] true with
          queue := replaceByKey qpiA (podInfoUpdate qpiA ⟨1, 9⟩)
            (newActiveQueue [qpiA] true).queue }) ∧
    (update ⟨1, 9⟩ qpiA (newActiveQueue [qpiA] true)).2.queue.length =
      (newActiveQueue [qpiA] true).queue.length :=
  (update_never_inserts ⟨1, 9⟩ qpiA (newActiveQueue [qpiA] true)).2 qpiA (by decide) rfl

/-- C6: `clusterEventsForPod` fails with the not-in-flight error exactly
when the pod's UID is not a key of `inFlightPods`; when the UID is present
it returns the events after the pod's marker with a nil error.  The method
only reads the state (it takes `lock.RLock`), so the queue is unchanged in
either case by construction. -/
theorem clusterEventsForPod_error_iff (aq : AQ) (pInfo : QueuedPodInfo) :
    (clusterEventsForPod aq pInfo = Except.error () ↔
      mapGet pInfo.pod.uid aq.inFlightPods = none) ∧
    (∀ i, mapGet pInfo.pod.uid aq.inFlightPods = some i →
      clusterEventsForPod aq pInfo = Except.ok (eventsAfterId i aq.inFlightEvents)) := by
  cases h : mapGet pInfo.pod.uid aq.inFlightPods with
  | none =>
    refine ⟨by simp [clusterEventsForPod, h], ?_⟩
    intro i hi
    cases hi
  | some j =>
    refine ⟨by simp [clusterEventsForPod, h], ?_⟩
    intro i hi
    injection hi with hj
    subst hj
    simp [clusterEventsForPod, h]

/-- Witness for C6: on a fresh queue no pod is in flight, so the call
fails. -/
theorem clusterEventsForPod_error_iff_witness :
    clusterEventsForPod (newActiveQueue [] true) qpiA = Except.error () :=
  (clusterEventsForPod_error_iff (newActiveQueue [] true) qpiA).1.mpr rfl

/-- C8: `done(uid)` is idempotent: when the UID is not a key of
`inFlightPods` the call leaves the whole state unchanged, and calling
`done` twice with the same UID equals calling it once. -/
theorem done_idempotent (u : Nat) (aq : AQ) :
    (mapGet u aq.inFlightPods = none → done u aq = aq) ∧
    done u (done u aq) = done u aq := by
  have hnoop : ∀ b : AQ, mapGet u b.inFlightPods = none → done u b = b := by
    intro b hb
    simp [done, hb]
  refine ⟨hnoop aq, ?_⟩
  cases h : mapGet u aq.inFlightPods with
  | none =>
    rw [hnoop aq h]
    exact hnoop aq h
  | some i =>
    apply hnoop
    simp [done, h, mapGet_mapDel_self]

/-- Witness for C8: `done` of a UID never popped leaves the fresh queue
unchanged, and a second `done` is a no-op. -/
theorem done_idempotent_witness :
    done 1 (newActiveQueue [] true) = newActiveQueue [] true ∧
    done 1 (done 1 (newActiveQueue [] true)) = done 1 (newActiveQueue [] true) :=
  ⟨(done_idempotent 1 (newActiveQueue [] true)).1 rfl,
   (done_idempotent 1 (newActiveQueue [] true)).2⟩

/-- C10: whenever `pop` returns, its error component is nil: the outcome is
a popped pod, the closed-queue `(nil, nil)` return, or the loop stays
blocked; the branch surfacing an error from the heap's `Pop` is
unreachable because the wait loop guarantees the heap is non-empty when
`Pop` is invoked. -/
theorem pop_never_errors (less : Cmp) (aq : AQ) (ws : List AQ) :
    (popLoop less aq ws).1 = PopOutcome.closedNil ∨
    (popLoop less aq ws).1 = PopOutcome.wouldBlock ∨
    ∃ p, (popLoop less aq ws).1 = PopOutcome.popped p := by
  induction ws generalizing aq with
  | nil =>
    by_cases h : aq.queue.length = 0
    · by_cases hc : aq.closed
      · left; simp [popLoop, h, hc]
      · right; left; simp [popLoop, h, hc]
    · obtain ⟨p, hp⟩ := popNonEmpty_spec less aq h
      right; right
      exact ⟨p, by simpa [popLoop, h] using hp⟩
  | cons w ws ih =>
    by_cases h : aq.queue.length = 0
    · by_cases hc : aq.closed
      · left; simp [popLoop, h, hc]
      · have hr : popLoop less aq (w :: ws) = popLoop less w ws := by
          simp [popLoop, h, hc]
        rw [hr]
        exact ih w
    · obtain ⟨p, hp⟩ := popNonEmpty_spec less aq h
      right; right
      exact ⟨p, by simpa [popLoop, h] using hp⟩

/-- C1 counterexample: after `close()`, a `pop` that finds the heap
non-empty still pops and returns a pod — the claim that once `closed` is
true every pop returns `(nil, nil)` regardless of the heap contents fails
on a closed queue holding one pod. -/
theorem pop_after_close_counterexample :
    (run lessP (newActiveQueue [] true) [Op.addOrUpdate qpiA, Op.close]).closed = true ∧
    (popOnce lessP (run lessP (newActiveQueue [] true)
      [Op.addOrUpdate qpiA, Op.close])).1 = PopOutcome.popped ⟨podA, 1, [], []⟩ := by
  decide

/-- C1 (amended): once `closed` is true no pop blocks: a pop that observes
an empty heap — including one already blocked, once woken — returns
`(nil, nil)`; a pop that finds the heap non-empty, however, still returns a
pod. -/
theorem pop_after_close_amended (less : Cmp) (aq : AQ) (hc : aq.closed = true) :
    (aq.queue.length = 0 → ∀ ws, popLoop less aq ws = (PopOutcome.closedNil, aq)) ∧
    (popOnce less aq).1 ≠ PopOutcome.wouldBlock ∧
    (aq.queue.length ≠ 0 → ∃ p, (popOnce less aq).1 = PopOutcome.popped p) := by
  refine ⟨?_, ?_, ?_⟩
  · intro h ws
    cases ws <;> simp [popLoop, h, hc]
  · by_cases h : aq.queue.length = 0
    · simp [popOnce, h, hc]
    · obtain ⟨p, hp⟩ := popNonEmpty_spec less aq h
      simp [popOnce, h, hp]
  · intro h
    obtain ⟨p, hp⟩ := popNonEmpty_spec less aq h
    exact ⟨p, by simpa [popOnce, h] using hp⟩

/-- Witness for the amended C1: a blocked pop on a closed empty queue
returns the closed-queue result. -/
theorem pop_after_close_amended_witness :
    popLoop lessP (close (newActiveQueue [] true)) [] =
      (PopOutcome.closedNil, close (newActiveQueue [] true)) :=
  (pop_after_close_amended lessP (close (newActiveQueue [] true)) rfl).1 rfl []

/-- C9: `pop` on an empty, not-closed queue waits on the condition
variable: with no wake-up it stays blocked; spurious wake-ups (the state
observed unchanged) make the loop re-check the predicate and wait again; a
wake-up showing the queue closed makes it return `(nil, nil)`; a wake-up
showing a non-empty heap lets it pop.  `pop` is the only operation whose
body contains a wait. -/
theorem pop_blocking_behavior (less : Cmp) (aq : AQ)
    (hlen : aq.queue.length = 0) (hopen : aq.closed = false) :
    popLoop less aq [] = (PopOutcome.wouldBlock, aq) ∧
    (∀ n, popLoop less aq (List.replicate n aq) = (PopOutcome.wouldBlock, aq)) ∧
    (∀ w, w.closed = true → w.queue.length = 0 →
      popLoop less aq [w] = (PopOutcome.closedNil, w)) ∧
    (∀ w, w.queue.length ≠ 0 → ∃ p, (popLoop less aq [w]).1 = PopOutcome.popped p) ∧
    (∀ (op : Op) (b : AQ), opBlocks op b = true → op = Op.pop) := by
  refine ⟨by simp [popLoop, hlen, hopen], ?_, ?_, ?_, ?_⟩
  · intro n
    induction n with
    | zero => simp [popLoop, hlen, hopen]
    | succ n ih => simpa [List.replicate_succ, popLoop, hlen, hopen] using ih
  · intro w hw hwl
    simp [popLoop, hlen, hopen, hw, hwl]
  · intro w hw
    obtain ⟨p, hp⟩ := popNonEmpty_spec less w hw
    have hr : popLoop less aq [w] = popLoop less w [] := by
      simp [popLoop, hlen, hopen]
    refine ⟨p, ?_⟩
    rw [hr]
    simpa [popLoop, hw] using hp
  · intro op b hb
    cases op <;> simp [opBlocks] at hb ⊢

/-- Witness for C9: a pop on the fresh empty queue blocks; woken by a
close, it returns the closed-queue result. -/
theorem pop_blocking_behavior_witness :
    popLoop lessP (newActiveQueue [] true) [] =
      (PopOutcome.wouldBlock, newActiveQueue [] true) ∧
    popLoop lessP (newActiveQueue [] true) [close (newActiveQueue [] true)] =
      (PopOutcome.closedNil, close (newActiveQueue [] true)) :=
  ⟨(pop_blocking_behavior lessP (newActiveQueue [] true) rfl rfl).1,
   (pop_blocking_behavior lessP (newActiveQueue [] true) rfl rfl).2.2.1
     (close (newActiveQueue [] true)) rfl rfl⟩

/-! ### Hints-disabled invariant (C4) -/

theorem step_hints_off (less : Cmp) (aq : AQ) (op : Op)
    (hh : aq.isSchedulingQueueHintEnabled = false)
    (hm : aq.inFlightPods = []) (ht : aq.inFlightEvents = []) :
    (step less aq op).isSchedulingQueueHintEnabled = false ∧
    (step less aq op).inFlightPods = [] ∧
    (step less aq op).inFlightEvents = [] := by
  cases op with
  | update newPod old =>
    cases hg : heapGet old aq.queue with
    | none => simp [step, update, hg, hh, hm, ht]
    | some pInfo => simp [step, update, hg, hh, hm, ht]
  | del p =>
    cases hd : heapDelete p aq.queue with
    | error e => simp [step, deleteAQ, hd, hh, hm, ht]
    | ok q => simp [step, deleteAQ, hd, hh, hm, ht]
  | pop =>
    by_cases hlen : aq.queue.length = 0
    · by_cases hc : aq.closed <;> simp [step, popOnce, hlen, hc, hh, hm, ht]
    · cases hq : aq.queue with
      | nil => exact absurd (by simp [hq]) hlen
      | cons x xs =>
        simp [step, popOnce, hlen, popNonEmpty, heapPop, hq, hh, hm, ht]
  | addOrUpdate p => simp [step, hh, hm, ht]
  | addIfPod o n e => simp [step, addEventIfPodInFlight, hm, mapGet, hh, ht]
  | addIfAny o n e => simp [step, addEventIfAnyInFlight, hm, hh, ht]
  | done u => simp [step, done, hm, mapGet, hh, ht]
  | close => simp [step, close, hh, hm, ht]

theorem run_hints_off (less : Cmp) (ops : List Op) :
    ∀ aq : AQ, aq.isSchedulingQueueHintEnabled = false →
      aq.inFlightPods = [] → aq.inFlightEvents = [] →
      (run less aq ops).isSchedulingQueueHintEnabled = false ∧
      (run less aq ops).inFlightPods = [] ∧
      (run less aq ops).inFlightEvents = [] := by
  induction ops with
  | nil =>
    intro aq hh hm ht
    exact ⟨by simpa [run] using hh, by simpa [run] using hm, by simpa [run] using ht⟩
  | cons op rest ih =>
    intro aq hh hm ht
    obtain ⟨h1, h2, h3⟩ := step_hints_off less aq op hh hm ht
    have := ih (step less aq op) h1 h2 h3
    simpa [run] using this

/-- C4: with `hintsEnabled=false`, for every operation sequence the
`inFlightPods` map and the timeline stay empty, `clusterEventsForPod`
always returns the not-in-flight error, and both event-recording APIs
return false and leave the state unchanged. -/
theorem hints_disabled_noop (less : Cmp) (q0 : List QueuedPodInfo) (ops : List Op) :
    (run less (newActiveQueue q0 false) ops).inFlightPods = [] ∧
    (run less (newActiveQueue q0 false) ops).inFlightEvents = [] ∧
    (∀ pI, clusterEventsForPod (run less (newActiveQueue q0 false) ops) pI =
      Except.error ()) ∧
    (∀ o n e, addEventIfPodInFlight o n e (run less (newActiveQueue q0 false) ops) =
      (false, run less (newActiveQueue q0 false) ops)) ∧
    (∀ o n e, addEventIfAnyInFlight o n e (run less (newActiveQueue q0 false) ops) =
      (false, run less (newActiveQueue q0 false) ops)) := by
  obtain ⟨hh, hm, ht⟩ := run_hints_off less ops (newActiveQueue q0 false) rfl rfl rfl
  refine ⟨hm, ht, ?_, ?_, ?_⟩
  · intro pI
    simp [clusterEventsForPod, hm, mapGet]
  · intro o n e
    simp [addEventIfPodInFlight, hm, mapGet]
  · intro o n e
    simp [addEventIfAnyInFlight, hm]

/-! ### Scheduling-cycle counting (C7) -/

theorem popOnce_cases (less : Cmp) (aq : AQ) :
    ((popOnce less aq).2 = aq ∧ popHappened less aq Op.pop = 0) ∨
    (popHappened less aq Op.pop = 1 ∧
      (popOnce less aq).2.schedCycle = wrap64 (aq.schedCycle + 1)) := by
  by_cases hlen : aq.queue.length = 0
  · left
    by_cases hc : aq.closed <;> simp [popOnce, hlen, hc, popHappened]
  · cases hq : aq.queue with
    | nil => exact absurd (by simp [hq]) hlen
    | cons x xs =>
      right
      by_cases hint : aq.isSchedulingQueueHintEnabled <;>
        simp [popOnce, hlen, popHappened, popNonEmpty, heapPop, hq, hint]

theorem step_schedCycle_nonpop (less : Cmp) (aq : AQ) (op : Op) (h : op ≠ Op.pop) :
    (step less aq op).schedCycle = aq.schedCycle := by
  cases op with
  | update newPod old =>
    cases hg : heapGet old aq.queue with
    | none => simp [step, update, hg]
    | some pInfo => simp [step, update, hg]
  | del p =>
    cases hd : heapDelete p aq.queue with
    | error e => simp [step, deleteAQ, hd]
    | ok q => simp [step, deleteAQ, hd]
  | pop => exact absurd rfl h
  | addOrUpdate p => simp [step]
  | addIfPod o n e =>
    cases hg : mapGet n.uid aq.inFlightPods with
    | none => simp [step, addEventIfPodInFlight, hg]
    | some i => simp [step, addEventIfPodInFlight, hg]
  | addIfAny o n e =>
    by_cases hl : aq.inFlightPods.length ≠ 0 <;>
      simp [step, addEventIfAnyInFlight, hl]
  | done u =>
    cases hg : mapGet u aq.inFlightPods with
    | none => simp [step, done, hg]
    | some i => simp [step, done, hg]
  | close => simp [step, close]

theorem wrap64_wrap64_add_one (n : Int) : wrap64 (wrap64 n + 1) = wrap64 (n + 1) := by
  simp only [wrap64, show (2 : Int) ^ 63 = 9223372036854775808 by norm_num,
    show (2 : Int) ^ 64 = 18446744073709551616 by norm_num]
  omega

theorem run_schedCycle_aux (less : Cmp) (ops : List Op) :
    ∀ (aq : AQ) (n : Nat), aq.schedCycle = wrap64 (n : Int) →
      (run less aq ops).schedCycle =
        wrap64 ((n : Int) + (countPops less aq ops : Int)) := by
  induction ops with
  | nil =>
    intro aq n h
    simpa [run, countPops] using h
  | cons op rest ih =>
    intro aq n h
    rw [run, countPops]
    by_cases hp : op = Op.pop
    · subst hp
      rcases popOnce_cases less aq with ⟨hst, hcnt⟩ | ⟨hcnt, hcyc⟩
      · have hstep : step less aq Op.pop = aq := by simp [step, hst]
        rw [hcnt, hstep]
        simpa using ih aq n h
      · have hsc : (step less aq Op.pop).schedCycle = wrap64 ((n : Int) + 1) := by
          show (popOnce less aq).2.schedCycle = wrap64 ((n : Int) + 1)
          rw [hcyc, h, wrap64_wrap64_add_one]
        have hrec := ih (step less aq Op.pop) (n + 1) (by rw [hsc]; push_cast; ring_nf)
        rw [hcnt, hrec]
        push_cast
        ring_nf
    · have h0 : popHappened less aq op = 0 := by
        cases op <;> first | rfl | exact absurd rfl hp
      have hsc : (step less aq op).schedCycle = aq.schedCycle :=
        step_schedCycle_nonpop less aq op hp
      have hrec := ih (step less aq op) n (by rw [hsc]; exact h)
      rw [h0, hrec]
      simp

/-- C7: `schedCycle` (as returned by `schedulingCycle`) equals the total
number of successful pops since construction, for every operation sequence
whose pop count stays below the `int64` wrap-around bound; hence it
increases by exactly one on each successful pop, and no other operation
changes it. -/
theorem schedCycle_counts_pops (less : Cmp) (q0 : List QueuedPodInfo) (hints : Bool)
    (ops : List Op)
    (hbound : countPops less (newActiveQueue q0 hints) ops < 2 ^ 63) :
    schedulingCycle (run less (newActiveQueue q0 hints) ops) =
      (countPops less (newActiveQueue q0 hints) ops : Int) := by
  have h0 : (newActiveQueue q0 hints).schedCycle = wrap64 ((0 : Nat) : Int) := by
    simp only [newActiveQueue, wrap64]
    norm_num
  have hmain := run_schedCycle_aux less ops (newActiveQueue q0 hints) 0 h0
  rw [schedulingCycle, hmain]
  have hlt : (countPops less (newActiveQueue q0 hints) ops : Int) <
      9223372036854775808 := by
    have : (countPops less (newActiveQueue q0 hints) ops : Int) <
        ((2 ^ 63 : Nat) : Int) := by exact_mod_cast hbound
    simpa using this
  have hge : (0 : Int) ≤ (countPops less (newActiveQueue q0 hints) ops : Int) :=
    Int.natCast_nonneg _
  simp only [wrap64, show (2 : Int) ^ 63 = 9223372036854775808 by norm_num,
    show (2 : Int) ^ 64 = 18446744073709551616 by norm_num]
  omega

/-- Witness for C7: one enqueue and one pop give `schedCycle = 1`. -/
theorem schedCycle_counts_pops_witness :
    schedulingCycle (run lessP (newActiveQueue [] true) [Op.addOrUpdate qpiA, Op.pop]) =
      (countPops lessP (newActiveQueue [] true) [Op.addOrUpdate qpiA, Op.pop] : Int) :=
  schedCycle_counts_pops lessP [] true [Op.addOrUpdate qpiA, Op.pop] (by decide)

/-! ### Timeline lemmas -/

theorem mem_idsOf {f : Nat × Entry} {tl : Timeline} (h : f ∈ tl) :
    f.1 ∈ idsOf tl :=
  List.mem_map_of_mem Prod.fst h

theorem idsOf_cons_nodup {g : Nat × Entry} {rest : Timeline}
    (h : (idsOf (g :: rest)).Nodup) : g.1 ∉ idsOf rest ∧ (idsOf rest).Nodup := by
  have h' : (g.1 :: List.map Prod.fst rest).Nodup := by
    simpa only [idsOf, List.map_cons] using h
  exact List.nodup_cons.mp h'

theorem collectEvents_append_marker (tl : Timeline) (j : Nat) (p : Pod) :
    collectEvents (tl ++ [(j, Entry.podMarker p)]) = collectEvents tl := by
  induction tl with
  | nil => rfl
  | cons f rest ih =>
    obtain ⟨k, ent⟩ := f
    cases ent <;> simp [collectEvents, ih]

theorem collectEvents_append_event (tl : Timeline) (j : Nat) (c : ClusterEvt) :
    collectEvents (tl ++ [(j, Entry.eventRecord c)]) = collectEvents tl ++ [c] := by
  induction tl with
  | nil => rfl
  | cons f rest ih =>
    obtain ⟨k, ent⟩ := f
    cases ent <;> simp [collectEvents, ih]

theorem eventsAfterId_append_marker (i j : Nat) (p : Pod) (tl : Timeline)
    (h : i ∈ idsOf tl) :
    eventsAfterId i (tl ++ [(j, Entry.podMarker p)]) = eventsAfterId i tl := by
  induction tl with
  | nil => simp [idsOf] at h
  | cons f rest ih =>
    obtain ⟨k, ent⟩ := f
    by_cases hk : k = i
    · simp [eventsAfterId, hk, collectEvents_append_marker]
    · have h' : i = k ∨ i ∈ idsOf rest := by
        have h2 := h
        simp [idsOf] at h2
        simpa [idsOf] using h2
      have h2 : i ∈ idsOf rest := by
        rcases h' with h3 | h3
        · exact absurd h3.symm hk
        · exact h3
      simp [eventsAfterId, hk, ih h2]

theorem eventsAfterId_append_event (i j : Nat) (c : ClusterEvt) (tl : Timeline)
    (h : i ∈ idsOf tl) :
    eventsAfterId i (tl ++ [(j, Entry.eventRecord c)]) =
      eventsAfterId i tl ++ [c] := by
  induction tl with
  | nil => simp [idsOf] at h
  | cons f rest ih =>
    obtain ⟨k, ent⟩ := f
    by_cases hk : k = i
    · simp [eventsAfterId, hk, collectEvents_append_event]
    · have h' : i = k ∨ i ∈ idsOf rest := by
        have h2 := h
        simp [idsOf] at h2
        simpa [idsOf] using h2
      have h2 : i ∈ idsOf rest := by
        rcases h' with h3 | h3
        · exact absurd h3.symm hk
        · exact h3
      simp [eventsAfterId, hk, ih h2]

theorem removeId_sublist (i : Nat) (tl : Timeline) : (removeId i tl).Sublist tl := by
  induction tl with
  | nil => simp [removeId]
  | cons f rest ih =>
    by_cases hk : f.1 = i
    · simp only [removeId, if_pos hk]
      exact List.sublist_cons_self f rest
    · simp only [removeId, if_neg hk]
      exact List.Sublist.cons₂ f ih

theorem prune_sublist (tl : Timeline) : (prune tl).Sublist tl := by
  induction tl with
  | nil => simp [prune]
  | cons f rest ih =>
    obtain ⟨k, ent⟩ := f
    cases ent with
    | podMarker p => simp [prune]
    | eventRecord c =>
      simpa [prune] using ih.trans (List.sublist_cons_self _ _)

theorem mem_removeId_of_ne {f : Nat × Entry} {tl : Timeline} {i : Nat}
    (hmem : f ∈ tl) (hne : f.1 ≠ i) : f ∈ removeId i tl := by
  induction tl with
  | nil => cases hmem
  | cons g rest ih =>
    by_cases hg : g.1 = i
    · rcases List.mem_cons.mp hmem with h | h
      · exact absurd (h ▸ hg) hne
      · simpa [removeId, hg] using h
    · rcases List.mem_cons.mp hmem with h | h
      · subst h
        simp [removeId, hg]
      · simp only [removeId, if_neg hg]
        exact List.mem_cons_of_mem _ (ih h)

theorem not_mem_removeId_self (i : Nat) (tl : Timeline)
    (hnd : (idsOf tl).Nodup) : i ∉ idsOf (removeId i tl) := by
  induction tl with
  | nil => simp [removeId, idsOf]
  | cons g rest ih =>
    have h2 := idsOf_cons_nodup hnd
    by_cases hg : g.1 = i
    · simp only [removeId, if_pos hg]
      exact hg ▸ h2.1
    · simp only [removeId, if_neg hg, idsOf, List.map_cons, List.mem_cons]
      push_neg
      exact ⟨fun h => hg h.symm, ih h2.2⟩

theorem nodup_ids_inj {tl : Timeline} (hnd : (idsOf tl).Nodup)
    {i : Nat} {a b : Entry} (ha : (i, a) ∈ tl) (hb : (i, b) ∈ tl) : a = b := by
  induction tl with
  | nil => cases ha
  | cons g rest ih =>
    have h2 := idsOf_cons_nodup hnd
    rcases List.mem_cons.mp ha with h | h <;> rcases List.mem_cons.mp hb with h' | h'
    · have h3 := h.trans h'.symm
      exact congrArg Prod.snd h3
    · exfalso
      apply h2.1
      have h4 : g.1 = i := by rw [← h]
      rw [h4]
      exact mem_idsOf h'
    · exfalso
      apply h2.1
      have h4 : g.1 = i := by rw [← h']
      rw [h4]
      exact mem_idsOf h
    · exact ih h2.2 h h'

theorem collectEvents_removeId_marker {tl : Timeline} {j : Nat} {q : Pod}
    (hnd : (idsOf tl).Nodup) (hmem : (j, Entry.podMarker q) ∈ tl) :
    collectEvents (removeId j tl) = collectEvents tl := by
  induction tl with
  | nil => cases hmem
  | cons g rest ih =>
    have h2 := idsOf_cons_nodup hnd
    by_cases hg : g.1 = j
    · rcases List.mem_cons.mp hmem with h | h
      · rw [← h] at hg ⊢
        simp [removeId, collectEvents]
      · exact absurd (mem_idsOf h) (hg ▸ h2.1)
    · have hmem' : (j, Entry.podMarker q) ∈ rest := by
        rcases List.mem_cons.mp hmem with h | h
        · exfalso; apply hg; rw [← h]
        · exact h
      obtain ⟨k, ent⟩ := g
      cases ent <;> simp [removeId, hg, collectEvents, ih h2.2 hmem']

theorem eventsAfterId_removeId_marker {tl : Timeline} {i j : Nat} {q : Pod}
    (hnd : (idsOf tl).Nodup) (hmem : (j, Entry.podMarker q) ∈ tl) (hne : i ≠ j) :
    eventsAfterId i (removeId j tl) = eventsAfterId i tl := by
  induction tl with
  | nil => cases hmem
  | cons g rest ih =>
    have h2 := idsOf_cons_nodup hnd
    obtain ⟨k, ent⟩ := g
    by_cases hgj : k = j
    · have hki : ¬k = i := fun h => hne (h ▸ hgj)
      have hji : ¬j = i := fun h => hne h.symm
      simp [removeId, hgj, eventsAfterId, hki, hji]
    · have hmem' : (j, Entry.podMarker q) ∈ rest := by
        rcases List.mem_cons.mp hmem with h | h
        · exact absurd (congrArg Prod.fst h).symm hgj
        · exact h
      by_cases hki : k = i
      · simp [removeId, hgj, eventsAfterId, hki, hne,
          collectEvents_removeId_marker h2.2 hmem']
      · simp [removeId, hgj, eventsAfterId, hki, ih h2.2 hmem']

theorem marker_mem_prune {tl : Timeline} {k : Nat} {p : Pod}
    (h : (k, Entry.podMarker p) ∈ tl) : (k, Entry.podMarker p) ∈ prune tl := by
  induction tl with
  | nil => cases h
  | cons g rest ih =>
    obtain ⟨m, ent⟩ := g
    cases ent with
    | podMarker r => simpa [prune] using h
    | eventRecord c =>
      rcases List.mem_cons.mp h with h1 | h1
      · simp at h1
      · simpa [prune] using ih h1

theorem headIsMarker_prune (tl : Timeline) : headIsMarker (prune tl) = true := by
  induction tl with
  | nil => rfl
  | cons g rest ih =>
    obtain ⟨m, ent⟩ := g
    cases ent with
    | podMarker p => simp [prune, headIsMarker]
    | eventRecord c => simpa [prune] using ih

theorem eventsAfterId_prune {tl : Timeline} {i : Nat} {p : Pod}
    (hnd : (idsOf tl).Nodup) (hmem : (i, Entry.podMarker p) ∈ tl) :
    eventsAfterId i (prune tl) = eventsAfterId i tl := by
  induction tl with
  | nil => cases hmem
  | cons g rest ih =>
    have h2 := idsOf_cons_nodup hnd
    obtain ⟨m, ent⟩ := g
    cases ent with
    | podMarker r => simp [prune]
    | eventRecord c =>
      have hmem' : (i, Entry.podMarker p) ∈ rest := by
        rcases List.mem_cons.mp hmem with h1 | h1
        · simp at h1
        · exact h1
      have hmem2 : i ∈ idsOf rest := mem_idsOf hmem'
      have h5 : m ∉ idsOf rest := h2.1
      have hmi : ¬m = i := fun hmi => h5 (by rw [hmi]; exact hmem2)
      simp [prune, eventsAfterId, hmi, ih h2.2 hmem']

/-! ### Map and marker lemmas -/

theorem mem_mapDel {e : Nat × Nat} {u : Nat} {m : List (Nat × Nat)} :
    e ∈ mapDel u m ↔ e ∈ m ∧ e.1 ≠ u := by
  induction m with
  | nil => simp [mapDel]
  | cons g rest ih =>
    obtain ⟨k, v⟩ := g
    by_cases hk : k = u
    · subst hk
      simp only [mapDel, if_pos rfl]
      constructor
      · intro h
        exact ⟨List.mem_cons_of_mem _ (ih.mp h).1, (ih.mp h).2⟩
      · rintro ⟨h1, h2⟩
        rcases List.mem_cons.mp h1 with h3 | h3
        · exact absurd (by rw [h3]) h2
        · exact ih.mpr ⟨h3, h2⟩
    · simp only [mapDel, if_neg hk]
      constructor
      · intro h
        rcases List.mem_cons.mp h with h3 | h3
        · exact ⟨h3 ▸ List.mem_cons_self _ _, by rw [h3]; exact hk⟩
        · exact ⟨List.mem_cons_of_mem _ (ih.mp h3).1, (ih.mp h3).2⟩
      · rintro ⟨h1, h2⟩
        rcases List.mem_cons.mp h1 with h3 | h3
        · exact h3 ▸ List.mem_cons_self _ _
        · exact List.mem_cons_of_mem _ (ih.mpr ⟨h3, h2⟩)

theorem isMarkerFor_iff {u i : Nat} {f : Nat × Entry} :
    isMarkerFor u i f = true ↔
      f.1 = i ∧ ∃ p, f.2 = Entry.podMarker p ∧ p.uid = u := by
  obtain ⟨k, ent⟩ := f
  cases ent with
  | podMarker p => simp [isMarkerFor]
  | eventRecord c => simp [isMarkerFor]

theorem WF_mapGet_marker {aq : AQ} {u i : Nat} (hwf : WF aq)
    (h : mapGet u aq.inFlightPods = some i) :
    ∃ p, (i, Entry.podMarker p) ∈ aq.inFlightEvents ∧ p.uid = u := by
  have hm := mapGet_mem h
  have h3 := hwf.2.2 (u, i) hm
  rw [List.any_eq_true] at h3
  obtain ⟨f, hf, hmk⟩ := h3
  rw [isMarkerFor_iff] at hmk
  obtain ⟨h1, p, hp, hu⟩ := hmk
  have hfe : f = (i, Entry.podMarker p) := by
    obtain ⟨k, ent⟩ := f
    simp only at h1 hp
    rw [h1, hp]
  exact ⟨p, hfe ▸ hf, hu⟩

/-! ### Preservation of well-formedness -/

theorem WF_of_eq {aq aq' : AQ} (h1 : aq'.inFlightEvents = aq.inFlightEvents)
    (h2 : aq'.inFlightPods = aq.inFlightPods) (h3 : aq'.nextId = aq.nextId)
    (hwf : WF aq) : WF aq' := by
  unfold WF at hwf ⊢
  rw [h1, h2, h3]
  exact hwf

theorem popOnce_state_cases (less : Cmp) (aq : AQ) :
    (popOnce less aq).2 = aq ∨
    (∃ m q', heapPop less aq.queue = some (m, q') ∧
      aq.isSchedulingQueueHintEnabled = false ∧
      (popOnce less aq).2 =
        { aq with queue := q', schedCycle := wrap64 (aq.schedCycle + 1) }) ∨
    (∃ m q', heapPop less aq.queue = some (m, q') ∧
      aq.isSchedulingQueueHintEnabled = true ∧
      (popOnce less aq).2 =
        { aq with
          queue := q'
          schedCycle := wrap64 (aq.schedCycle + 1)
          inFlightPods := mapSet m.pod.uid aq.nextId aq.inFlightPods
          inFlightEvents := aq.inFlightEvents ++ [(aq.nextId, Entry.podMarker m.pod)]
          nextId := aq.nextId + 1 }) := by
  by_cases hlen : aq.queue.length = 0
  · left
    by_cases hc : aq.closed <;> simp [popOnce, hlen, hc]
  · cases hq : aq.queue with
    | nil => exact absurd (by simp [hq]) hlen
    | cons x xs =>
      rcases hsel : selectMin less x xs with ⟨m, q'⟩
      by_cases hint : aq.isSchedulingQueueHintEnabled
      · right; right
        exact ⟨m, q', by simp [heapPop, hq, hsel], hint,
          by simp [popOnce, hlen, popNonEmpty, heapPop, hq, hsel, hint]⟩
      · right; left
        exact ⟨m, q', by simp [heapPop, hq, hsel], by simpa using hint,
          by simp [popOnce, hlen, popNonEmpty, heapPop, hq, hsel, hint]⟩

theorem WF_pushMarker {aq : AQ} (hwf : WF aq) (p : Pod)
    (q' : List QueuedPodInfo) (c : Int) :
    WF { aq with
         queue := q'
         schedCycle := c
         inFlightPods := mapSet p.uid aq.nextId aq.inFlightPods
         inFlightEvents := aq.inFlightEvents ++ [(aq.nextId, Entry.podMarker p)]
         nextId := aq.nextId + 1 } := by
  have hnotin : aq.nextId ∉ idsOf aq.inFlightEvents := by
    intro hin
    obtain ⟨f, hf, hf1⟩ := List.mem_map.mp hin
    have := hwf.2.1 f hf
    omega
  refine ⟨?_, ?_, ?_⟩
  · show (idsOf (aq.inFlightEvents ++ [(aq.nextId, Entry.podMarker p)])).Nodup
    have heq : idsOf (aq.inFlightEvents ++ [(aq.nextId, Entry.podMarker p)]) =
        idsOf aq.inFlightEvents ++ [aq.nextId] := by
      simp [idsOf]
    rw [heq]
    exact hwf.1.append (List.nodup_singleton _)
      (by simpa [List.disjoint_singleton] using hnotin)
  · intro f hf
    rcases List.mem_append.mp hf with h1 | h1
    · exact Nat.lt_succ_of_lt (hwf.2.1 f h1)
    · have : f = (aq.nextId, Entry.podMarker p) := by simpa using h1
      rw [this]
      exact Nat.lt_succ_self _
  · intro e he
    rcases List.mem_cons.mp he with h1 | h1
    · rw [List.any_eq_true]
      refine ⟨(aq.nextId, Entry.podMarker p), List.mem_append_right _ (by simp), ?_⟩
      rw [isMarkerFor_iff]
      refine ⟨by rw [h1], p, rfl, by rw [h1]⟩
    · have h3 := hwf.2.2 e (mem_mapDel.mp h1).1
      rw [List.any_eq_true] at h3 ⊢
      obtain ⟨f, hf, hmk⟩ := h3
      exact ⟨f, List.mem_append_left _ hf, hmk⟩

theorem WF_pushEvent {aq : AQ} (hwf : WF aq) (c : ClusterEvt) :
    WF { aq with
         inFlightEvents := aq.inFlightEvents ++ [(aq.nextId, Entry.eventRecord c)]
         nextId := aq.nextId + 1 } := by
  have hnotin : aq.nextId ∉ idsOf aq.inFlightEvents := by
    intro hin
    obtain ⟨f, hf, hf1⟩ := List.mem_map.mp hin
    have := hwf.2.1 f hf
    omega
  refine ⟨?_, ?_, ?_⟩
  · show (idsOf (aq.inFlightEvents ++ [(aq.nextId, Entry.eventRecord c)])).Nodup
    have heq : idsOf (aq.inFlightEvents ++ [(aq.nextId, Entry.eventRecord c)]) =
        idsOf aq.inFlightEvents ++ [aq.nextId] := by
      simp [idsOf]
    rw [heq]
    exact hwf.1.append (List.nodup_singleton _)
      (by simpa [List.disjoint_singleton] using hnotin)
  · intro f hf
    rcases List.mem_append.mp hf with h1 | h1
    · exact Nat.lt_succ_of_lt (hwf.2.1 f h1)
    · have : f = (aq.nextId, Entry.eventRecord c) := by simpa using h1
      rw [this]
      exact Nat.lt_succ_self _
  · intro e he
    have h3 := hwf.2.2 e he
    rw [List.any_eq_true] at h3 ⊢
    obtain ⟨f, hf, hmk⟩ := h3
    exact ⟨f, List.mem_append_left _ hf, hmk⟩

theorem WF_done {aq : AQ} (hwf : WF aq) (u : Nat) : WF (done u aq) := by
  cases h : mapGet u aq.inFlightPods with
  | none => simpa [done, h] using hwf
  | some j =>
    have hd : done u aq =
        { aq with
          inFlightPods := mapDel u aq.inFlightPods
          inFlightEvents := prune (removeId j aq.inFlightEvents) } := by
      simp [done, h]
    have hsub : (prune (removeId j aq.inFlightEvents)).Sublist aq.inFlightEvents :=
      (prune_sublist _).trans (removeId_sublist _ _)
    obtain ⟨qq, hqq, hqu⟩ := WF_mapGet_marker hwf h
    rw [hd]
    refine ⟨?_, ?_, ?_⟩
    · exact hwf.1.sublist (hsub.map Prod.fst)
    · intro f hf
      exact hwf.2.1 f (hsub.subset hf)
    · intro e he
      have he' := mem_mapDel.mp he
      have h3 := hwf.2.2 e he'.1
      rw [List.any_eq_true] at h3 ⊢
      obtain ⟨f, hf, hmk⟩ := h3
      obtain ⟨k, ent⟩ := f
      rw [isMarkerFor_iff] at hmk
      obtain ⟨hf1, p, hp, hu⟩ := hmk
      simp only at hf1 hp
      subst hf1
      subst hp
      have hfj : e.2 ≠ j := by
        intro hfj
        rw [hfj] at hf
        have heq := nodup_ids_inj hwf.1 hf hqq
        injection heq with hpq
        rw [hpq] at hu
        exact he'.2 (hu ▸ hqu ▸ rfl)
      have hf' : (e.2, Entry.podMarker p) ∈ removeId j aq.inFlightEvents :=
        mem_removeId_of_ne hf hfj
      exact ⟨(e.2, Entry.podMarker p), marker_mem_prune hf',
        isMarkerFor_iff.mpr ⟨rfl, p, rfl, hu⟩⟩

theorem step_WF (less : Cmp) (aq : AQ) (op : Op) (hwf : WF aq) :
    WF (step less aq op) := by
  cases op with
  | update newPod old =>
    cases hg : heapGet old aq.queue with
    | none =>
      exact WF_of_eq (by simp [step, update, hg]) (by simp [step, update, hg])
        (by simp [step, update, hg]) hwf
    | some pInfo =>
      exact WF_of_eq (by simp [step, update, hg]) (by simp [step, update, hg])
        (by simp [step, update, hg]) hwf
  | del p =>
    cases hd : heapDelete p aq.queue with
    | error e =>
      exact WF_of_eq (by simp [step, deleteAQ, hd]) (by simp [step, deleteAQ, hd])
        (by simp [step, deleteAQ, hd]) hwf
    | ok q =>
      exact WF_of_eq (by simp [step, deleteAQ, hd]) (by simp [step, deleteAQ, hd])
        (by simp [step, deleteAQ, hd]) hwf
  | pop =>
    rcases popOnce_state_cases less aq with h | ⟨m, q', _, _, h⟩ | ⟨m, q', _, _, h⟩
    · exact WF_of_eq (by simp [step, h]) (by simp [step, h]) (by simp [step, h]) hwf
    · exact WF_of_eq (by simp [step, h]) (by simp [step, h]) (by simp [step, h]) hwf
    · have hs : step less aq Op.pop =
          { aq with
            queue := q'
            schedCycle := wrap64 (aq.schedCycle + 1)
            inFlightPods := mapSet m.pod.uid aq.nextId aq.inFlightPods
            inFlightEvents := aq.inFlightEvents ++ [(aq.nextId, Entry.podMarker m.pod)]
            nextId := aq.nextId + 1 } := h
      rw [hs]
      exact WF_pushMarker hwf m.pod q' _
  | addOrUpdate p =>
    exact WF_of_eq (by simp [step]) (by simp [step]) (by simp [step]) hwf
  | addIfPod o n e =>
    cases hg : mapGet n.uid aq.inFlightPods with
    | none =>
      exact WF_of_eq (by simp [step, addEventIfPodInFlight, hg])
        (by simp [step, addEventIfPodInFlight, hg])
        (by simp [step, addEventIfPodInFlight, hg]) hwf
    | some i =>
      have hs : step less aq (Op.addIfPod o n e) =
          { aq with
            inFlightEvents := aq.inFlightEvents ++
              [(aq.nextId, Entry.eventRecord ⟨e, Obj.podObj o, Obj.podObj n⟩)]
            nextId := aq.nextId + 1 } := by
        simp [step, addEventIfPodInFlight, hg]
      rw [hs]
      exact WF_pushEvent hwf _
  | addIfAny o n e =>
    by_cases hl : aq.inFlightPods.length ≠ 0
    · have hs : step less aq (Op.addIfAny o n e) =
          { aq with
            inFlightEvents := aq.inFlightEvents ++
              [(aq.nextId, Entry.eventRecord ⟨e, o, n⟩)]
            nextId := aq.nextId + 1 } := by
        simp [step, addEventIfAnyInFlight, hl]
      rw [hs]
      exact WF_pushEvent hwf _
    · exact WF_of_eq (by simp [step, addEventIfAnyInFlight, hl])
        (by simp [step, addEventIfAnyInFlight, hl])
        (by simp [step, addEventIfAnyInFlight, hl]) hwf
  | done u => exact WF_done hwf u
  | close =>
    exact WF_of_eq (by simp [step, close]) (by simp [step, close])
      (by simp [step, close]) hwf

/-! ### In-flight stability and event capture (C2) -/

theorem step_flight_stable (less : Cmp) (aq : AQ) (op : Op) {u i : Nat}
    (_hwf : WF aq) (hin : mapGet u aq.inFlightPods = some i)
    (hav : avoidsU u less aq op = true) :
    mapGet u (step less aq op).inFlightPods = some i := by
  cases op with
  | update newPod old =>
    cases hg : heapGet old aq.queue with
    | none => simpa [step, update, hg] using hin
    | some pInfo => simpa [step, update, hg] using hin
  | del p =>
    cases hd : heapDelete p aq.queue with
    | error e => simpa [step, deleteAQ, hd] using hin
    | ok q => simpa [step, deleteAQ, hd] using hin
  | pop =>
    rcases popOnce_state_cases less aq with h | ⟨m, q', hpop, _, h⟩ | ⟨m, q', hpop, _, h⟩
    · simpa [step, h] using hin
    · simpa [step, h] using hin
    · have hne : m.pod.uid ≠ u := by
        simp [avoidsU, hpop] at hav
        exact hav
      have hs : (step less aq Op.pop).inFlightPods =
          mapSet m.pod.uid aq.nextId aq.inFlightPods := by rw [show step less aq Op.pop = _ from h]
      rw [hs, mapGet_mapSet_ne _ _ _ (Ne.symm hne)]
      exact hin
  | addOrUpdate p => simpa [step] using hin
  | addIfPod o n e =>
    cases hg : mapGet n.uid aq.inFlightPods with
    | none => simpa [step, addEventIfPodInFlight, hg] using hin
    | some j => simpa [step, addEventIfPodInFlight, hg] using hin
  | addIfAny o n e =>
    by_cases hl : aq.inFlightPods.length ≠ 0 <;>
      simpa [step, addEventIfAnyInFlight, hl] using hin
  | done v =>
    have hne : v ≠ u := by
      simp [avoidsU] at hav
      exact hav
    cases hg : mapGet v aq.inFlightPods with
    | none => simpa [step, done, hg] using hin
    | some j =>
      have hs : (step less aq (Op.done v)).inFlightPods =
          mapDel v aq.inFlightPods := by simp [step, done, hg]
      rw [hs, mapGet_mapDel_ne _ _ (Ne.symm hne)]
      exact hin
  | close => simpa [step, close] using hin

theorem step_eventsAfter (less : Cmp) (aq : AQ) (op : Op) {u i : Nat}
    (hwf : WF aq) (hin : mapGet u aq.inFlightPods = some i)
    (hav : avoidsU u less aq op = true) :
    eventsAfterId i (step less aq op).inFlightEvents =
      eventsAfterId i aq.inFlightEvents ++ stepAppends aq op := by
  obtain ⟨p, hpmem, hpu⟩ := WF_mapGet_marker hwf hin
  have hid : i ∈ idsOf aq.inFlightEvents := mem_idsOf hpmem
  cases op with
  | update newPod old =>
    cases hg : heapGet old aq.queue with
    | none => simp [step, update, hg, stepAppends]
    | some pInfo => simp [step, update, hg, stepAppends]
  | del pp =>
    cases hd : heapDelete pp aq.queue with
    | error e => simp [step, deleteAQ, hd, stepAppends]
    | ok q => simp [step, deleteAQ, hd, stepAppends]
  | pop =>
    rcases popOnce_state_cases less aq with h | ⟨m, q', hpop, _, h⟩ | ⟨m, q', hpop, _, h⟩
    · simp [step, h, stepAppends]
    · simp [step, h, stepAppends]
    · have hs : (step less aq Op.pop).inFlightEvents =
          aq.inFlightEvents ++ [(aq.nextId, Entry.podMarker m.pod)] := by
        rw [show step less aq Op.pop = _ from h]
      rw [hs, eventsAfterId_append_marker _ _ _ _ hid]
      simp [stepAppends]
  | addOrUpdate pp => simp [step, stepAppends]
  | addIfPod o n e =>
    cases hg : mapGet n.uid aq.inFlightPods with
    | none => simp [step, addEventIfPodInFlight, hg, stepAppends]
    | some j =>
      have hs : (step less aq (Op.addIfPod o n e)).inFlightEvents =
          aq.inFlightEvents ++
            [(aq.nextId, Entry.eventRecord ⟨e, Obj.podObj o, Obj.podObj n⟩)] := by
        simp [step, addEventIfPodInFlight, hg]
      rw [hs, eventsAfterId_append_event _ _ _ _ hid]
      simp [stepAppends, hg]
  | addIfAny o n e =>
    by_cases hl : aq.inFlightPods.length ≠ 0
    · have hs : (step less aq (Op.addIfAny o n e)).inFlightEvents =
          aq.inFlightEvents ++ [(aq.nextId, Entry.eventRecord ⟨e, o, n⟩)] := by
        simp [step, addEventIfAnyInFlight, hl]
      rw [hs, eventsAfterId_append_event _ _ _ _ hid]
      simp [stepAppends, hl]
    · simp [step, addEventIfAnyInFlight, hl, stepAppends]
  | done v =>
    have hne : v ≠ u := by
      simp [avoidsU] at hav
      exact hav
    cases hg : mapGet v aq.inFlightPods with
    | none => simp [step, done, hg, stepAppends]
    | some j =>
      obtain ⟨qv, hqv, hqvu⟩ := WF_mapGet_marker hwf hg
      have hij : i ≠ j := by
        intro hij
        rw [hij] at hpmem
        have heq := nodup_ids_inj hwf.1 hpmem hqv
        injection heq with hpq
        apply hne
        rw [← hqvu, ← hpq, hpu]
      have hnd' : (idsOf (removeId j aq.inFlightEvents)).Nodup :=
        hwf.1.sublist ((removeId_sublist _ _).map Prod.fst)
      have hpm' : (i, Entry.podMarker p) ∈ removeId j aq.inFlightEvents :=
        mem_removeId_of_ne hpmem hij
      have h1 : eventsAfterId i (removeId j aq.inFlightEvents) =
          eventsAfterId i aq.inFlightEvents :=
        eventsAfterId_removeId_marker hwf.1 hqv hij
      have h2 : eventsAfterId i (prune (removeId j aq.inFlightEvents)) =
          eventsAfterId i (removeId j aq.inFlightEvents) :=
        eventsAfterId_prune hnd' hpm'
      have hs : (step less aq (Op.done v)).inFlightEvents =
          prune (removeId j aq.inFlightEvents) := by
        simp [step, done, hg]
      rw [hs, h2, h1]
      simp [stepAppends]
  | close => simp [step, close, stepAppends]

/-- C2: for a pod in flight (popped with hints enabled, not yet `done`),
every event recorded via `addEventIfPodInFlight` / `addEventIfAnyInFlight`
after the pod's marker and before its `done` appears in the list returned
by `clusterEventsForPod`, appended in timeline order after the events
already visible, with the markers of other in-flight pods skipped. -/
theorem clusterEventsForPod_captures (less : Cmp) (ops : List Op) :
    ∀ (aq : AQ) (pInfo : QueuedPodInfo) (i : Nat), WF aq →
      mapGet pInfo.pod.uid aq.inFlightPods = some i →
      safeRun pInfo.pod.uid less aq ops = true →
      clusterEventsForPod (run less aq ops) pInfo =
        Except.ok (eventsAfterId i aq.inFlightEvents ++
          appendedEvents less aq ops) := by
  induction ops with
  | nil =>
    intro aq pInfo i hwf hin _
    simp [run, appendedEvents, clusterEventsForPod, hin]
  | cons op rest ih =>
    intro aq pInfo i hwf hin hsafe
    rw [safeRun, Bool.and_eq_true] at hsafe
    obtain ⟨hav, hsafe'⟩ := hsafe
    have hwf' := step_WF less aq op hwf
    have hin' := step_flight_stable less aq op hwf hin hav
    have hevt := step_eventsAfter less aq op hwf hin hav
    have hrec := ih (step less aq op) pInfo i hwf' hin' hsafe'
    simp only [run, appendedEvents]
    rw [hrec, hevt, List.append_assoc]

/-- Witness for C2: with pod A in flight (marker at node 0), a broadcast
event and an A-addressed event recorded afterwards both show up, in order,
in `clusterEventsForPod(A)`. -/
theorem clusterEventsForPod_captures_witness :
    clusterEventsForPod
      (run lessP (⟨[], [(1, 0)], [(0, Entry.podMarker podA)], 1, 1, false, true⟩ : AQ)
        [Op.addIfAny (Obj.other 5) (Obj.other 6) 4, Op.addIfPod podB podA 7])
      qpiA =
    Except.ok
      (eventsAfterId 0
          (⟨[], [(1, 0)], [(0, Entry.podMarker podA)], 1, 1, false, true⟩ : AQ).inFlightEvents ++
        appendedEvents lessP
          (⟨[], [(1, 0)], [(0, Entry.podMarker podA)], 1, 1, false, true⟩ : AQ)
          [Op.addIfAny (Obj.other 5) (Obj.other 6) 4, Op.addIfPod podB podA 7]) :=
  clusterEventsForPod_captures lessP
    [Op.addIfAny (Obj.other 5) (Obj.other 6) 4, Op.addIfPod podB podA 7]
    (⟨[], [(1, 0)], [(0, Entry.podMarker podA)], 1, 1, false, true⟩ : AQ) qpiA 0
    ⟨by decide, by decide, by decide⟩ (by decide) (by decide)

/-! ### The reachable-state invariant and done (C3) -/

theorem headIsMarker_append {tl : Timeline} (h : tl ≠ []) (x : Nat × Entry) :
    headIsMarker (tl ++ [x]) = headIsMarker tl := by
  cases tl with
  | nil => exact absurd rfl h
  | cons g rest =>
    obtain ⟨k, ent⟩ := g
    cases ent <;> simp [headIsMarker]

theorem tl_ne_nil_of_pods_ne_nil {aq : AQ} (hwf : WF aq)
    (h : aq.inFlightPods ≠ []) : aq.inFlightEvents ≠ [] := by
  cases hm : aq.inFlightPods with
  | nil => exact absurd hm h
  | cons e rest =>
    have h3 := hwf.2.2 e (by rw [hm]; exact List.mem_cons_self _ _)
    rw [List.any_eq_true] at h3
    obtain ⟨f, hf, _⟩ := h3
    exact List.ne_nil_of_mem hf

theorem markerOwnedOne_congr {aq aq' : AQ}
    (h : aq'.inFlightPods = aq.inFlightPods) (f : Nat × Entry) :
    markerOwnedOne aq' f = markerOwnedOne aq f := by
  obtain ⟨k, ent⟩ := f
  cases ent <;> simp [markerOwnedOne, h]

theorem Inv_of_eq {aq aq' : AQ} (h1 : aq'.inFlightEvents = aq.inFlightEvents)
    (h2 : aq'.inFlightPods = aq.inFlightPods) (h3 : aq'.nextId = aq.nextId)
    (hinv : Inv aq) : Inv aq' := by
  refine ⟨WF_of_eq h1 h2 h3 hinv.1, ?_, ?_⟩
  · intro f hf
    rw [markerOwnedOne_congr h2]
    exact hinv.2.1 f (h1 ▸ hf)
  · rw [h1]
    exact hinv.2.2

theorem Inv_pushMarker {aq : AQ} (hinv : Inv aq) (p : Pod)
    (q' : List QueuedPodInfo) (c : Int)
    (hnone : mapGet p.uid aq.inFlightPods = none) :
    Inv { aq with
          queue := q'
          schedCycle := c
          inFlightPods := mapSet p.uid aq.nextId aq.inFlightPods
          inFlightEvents := aq.inFlightEvents ++ [(aq.nextId, Entry.podMarker p)]
          nextId := aq.nextId + 1 } := by
  refine ⟨WF_pushMarker hinv.1 p q' c, ?_, ?_⟩
  · intro f hf
    rcases List.mem_append.mp hf with h1 | h1
    · obtain ⟨k, ent⟩ := f
      cases ent with
      | eventRecord c2 => simp [markerOwnedOne]
      | podMarker r =>
        have ho := hinv.2.1 _ h1
        simp only [markerOwnedOne, beq_iff_eq] at ho ⊢
        have hru : r.uid ≠ p.uid := by
          intro hru
          rw [hru] at ho
          rw [hnone] at ho
          cases ho
        rw [mapGet_mapSet_ne _ _ _ hru]
        exact ho
    · have hfx : f = (aq.nextId, Entry.podMarker p) := by simpa using h1
      rw [hfx]
      simp only [markerOwnedOne, beq_iff_eq]
      exact mapGet_mapSet_self _ _ _
  · cases htl : aq.inFlightEvents with
    | nil => rfl
    | cons g rest =>
      show headIsMarker ((g :: rest) ++ [(aq.nextId, Entry.podMarker p)]) = true
      rw [headIsMarker_append (List.cons_ne_nil g rest)]
      have hh := hinv.2.2
      rw [htl] at hh
      exact hh

theorem Inv_pushEvent {aq : AQ} (hinv : Inv aq) (c : ClusterEvt)
    (hne : aq.inFlightEvents ≠ []) :
    Inv { aq with
          inFlightEvents := aq.inFlightEvents ++ [(aq.nextId, Entry.eventRecord c)]
          nextId := aq.nextId + 1 } := by
  refine ⟨WF_pushEvent hinv.1 c, ?_, ?_⟩
  · intro f hf
    rcases List.mem_append.mp hf with h1 | h1
    · have ho := hinv.2.1 f h1
      obtain ⟨k, ent⟩ := f
      cases ent with
      | podMarker r => simpa [markerOwnedOne] using ho
      | eventRecord c2 => simp [markerOwnedOne]
    · have hfx : f = (aq.nextId, Entry.eventRecord c) := by simpa using h1
      rw [hfx]
      simp [markerOwnedOne]
  · rw [show ({ aq with
        inFlightEvents := aq.inFlightEvents ++ [(aq.nextId, Entry.eventRecord c)]
        nextId := aq.nextId + 1 } : AQ).inFlightEvents =
      aq.inFlightEvents ++ [(aq.nextId, Entry.eventRecord c)] from rfl]
    rw [headIsMarker_append hne]
    exact hinv.2.2

theorem Inv_done {aq : AQ} (hinv : Inv aq) (u : Nat) : Inv (done u aq) := by
  cases h : mapGet u aq.inFlightPods with
  | none =>
    have hd : done u aq = aq := by simp [done, h]
    rw [hd]
    exact hinv
  | some j =>
    have hd : done u aq =
        { aq with
          inFlightPods := mapDel u aq.inFlightPods
          inFlightEvents := prune (removeId j aq.inFlightEvents) } := by
      simp [done, h]
    rw [hd]
    refine ⟨?_, ?_, ?_⟩
    · have := WF_done hinv.1 u
      rw [hd] at this
      exact this
    · intro f hf
      have hf1 : f ∈ removeId j aq.inFlightEvents := (prune_sublist _).subset hf
      have hf2 : f ∈ aq.inFlightEvents := (removeId_sublist _ _).subset hf1
      have ho := hinv.2.1 f hf2
      obtain ⟨k, ent⟩ := f
      cases ent with
      | eventRecord c2 => simp [markerOwnedOne]
      | podMarker r =>
        simp only [markerOwnedOne, beq_iff_eq] at ho ⊢
        have hru : r.uid ≠ u := by
          intro hru
          rw [hru, h] at ho
          injection ho with hjk
          have hj : j ∈ idsOf (removeId j aq.inFlightEvents) := by
            have hk : k ∈ idsOf (removeId j aq.inFlightEvents) := mem_idsOf hf1
            rw [hjk.symm] at hk
            exact hk
          exact not_mem_removeId_self j _ hinv.1.1 hj
        rw [mapGet_mapDel_ne _ _ hru]
        exact ho
    · exact headIsMarker_prune _

theorem step_Inv (less : Cmp) (aq : AQ) (op : Op) (hinv : Inv aq)
    (hfresh : freshPop less aq op = true) : Inv (step less aq op) := by
  cases op with
  | update newPod old =>
    cases hg : heapGet old aq.queue with
    | none =>
      exact Inv_of_eq (by simp [step, update, hg]) (by simp [step, update, hg])
        (by simp [step, update, hg]) hinv
    | some pInfo =>
      exact Inv_of_eq (by simp [step, update, hg]) (by simp [step, update, hg])
        (by simp [step, update, hg]) hinv
  | del p =>
    cases hd : heapDelete p aq.queue with
    | error e =>
      exact Inv_of_eq (by simp [step, deleteAQ, hd]) (by simp [step, deleteAQ, hd])
        (by simp [step, deleteAQ, hd]) hinv
    | ok q =>
      exact Inv_of_eq (by simp [step, deleteAQ, hd]) (by simp [step, deleteAQ, hd])
        (by simp [step, deleteAQ, hd]) hinv
  | pop =>
    rcases popOnce_state_cases less aq with h | ⟨m, q', hpop, _, h⟩ | ⟨m, q', hpop, _, h⟩
    · exact Inv_of_eq (by simp [step, h]) (by simp [step, h]) (by simp [step, h]) hinv
    · exact Inv_of_eq (by simp [step, h]) (by simp [step, h]) (by simp [step, h]) hinv
    · have hnone : mapGet m.pod.uid aq.inFlightPods = none := by
        simp [freshPop, hpop, Option.isNone_iff_eq_none] at hfresh
        exact hfresh
      have hs : step less aq Op.pop =
          { aq with
            queue := q'
            schedCycle := wrap64 (aq.schedCycle + 1)
            inFlightPods := mapSet m.pod.uid aq.nextId aq.inFlightPods
            inFlightEvents := aq.inFlightEvents ++ [(aq.nextId, Entry.podMarker m.pod)]
            nextId := aq.nextId + 1 } := h
      rw [hs]
      exact Inv_pushMarker hinv m.pod q' _ hnone
  | addOrUpdate p =>
    exact Inv_of_eq (by simp [step]) (by simp [step]) (by simp [step]) hinv
  | addIfPod o n e =>
    cases hg : mapGet n.uid aq.inFlightPods with
    | none =>
      exact Inv_of_eq (by simp [step, addEventIfPodInFlight, hg])
        (by simp [step, addEventIfPodInFlight, hg])
        (by simp [step, addEventIfPodInFlight, hg]) hinv
    | some i =>
      obtain ⟨p, hpmem, _⟩ := WF_mapGet_marker hinv.1 hg
      have hs : step less aq (Op.addIfPod o n e) =
          { aq with
            inFlightEvents := aq.inFlightEvents ++
              [(aq.nextId, Entry.eventRecord ⟨e, Obj.podObj o, Obj.podObj n⟩)]
            nextId := aq.nextId + 1 } := by
        simp [step, addEventIfPodInFlight, hg]
      rw [hs]
      exact Inv_pushEvent hinv _ (List.ne_nil_of_mem hpmem)
  | addIfAny o n e =>
    by_cases hl : aq.inFlightPods.length ≠ 0
    · have hpods : aq.inFlightPods ≠ [] := by
        intro hnil
        rw [hnil] at hl
        exact hl rfl
      have hs : step less aq (Op.addIfAny o n e) =
          { aq with
            inFlightEvents := aq.inFlightEvents ++
              [(aq.nextId, Entry.eventRecord ⟨e, o, n⟩)]
            nextId := aq.nextId + 1 } := by
        simp [step, addEventIfAnyInFlight, hl]
      rw [hs]
      exact Inv_pushEvent hinv _ (tl_ne_nil_of_pods_ne_nil hinv.1 hpods)
    · exact Inv_of_eq (by simp [step, addEventIfAnyInFlight, hl])
        (by simp [step, addEventIfAnyInFlight, hl])
        (by simp [step, addEventIfAnyInFlight, hl]) hinv
  | done u => exact Inv_done hinv u
  | close =>
    exact Inv_of_eq (by simp [step, close]) (by simp [step, close])
      (by simp [step, close]) hinv

theorem run_Inv (less : Cmp) (ops : List Op) :
    ∀ aq : AQ, Inv aq → freshRun less aq ops = true → Inv (run less aq ops) := by
  induction ops with
  | nil =>
    intro aq hinv _
    simpa [run] using hinv
  | cons op rest ih =>
    intro aq hinv hfresh
    rw [freshRun, Bool.and_eq_true] at hfresh
    have := ih (step less aq op) (step_Inv less aq op hinv hfresh.1) hfresh.2
    simpa [run] using this

theorem Inv_init (q0 : List QueuedPodInfo) (hints : Bool) :
    Inv (newActiveQueue q0 hints) :=
  ⟨⟨by simp [newActiveQueue, idsOf], by simp [newActiveQueue],
    by simp [newActiveQueue]⟩, by simp [newActiveQueue], rfl⟩

theorem done_purges (aq : AQ) (u : Nat) (hinv : Inv aq) :
    mapGet u (done u aq).inFlightPods = none ∧
    (∀ f ∈ (done u aq).inFlightEvents,
      ∀ p, f.2 = Entry.podMarker p → p.uid ≠ u) ∧
    headIsMarker (done u aq).inFlightEvents = true := by
  cases h : mapGet u aq.inFlightPods with
  | none =>
    have hd : done u aq = aq := by simp [done, h]
    rw [hd]
    refine ⟨h, ?_, hinv.2.2⟩
    intro f hf p hp hpu
    have ho := hinv.2.1 f hf
    obtain ⟨k, ent⟩ := f
    simp only at hp
    subst hp
    simp only [markerOwnedOne, beq_iff_eq] at ho
    rw [hpu, h] at ho
    cases ho
  | some j =>
    have hd : done u aq =
        { aq with
          inFlightPods := mapDel u aq.inFlightPods
          inFlightEvents := prune (removeId j aq.inFlightEvents) } := by
      simp [done, h]
    rw [hd]
    refine ⟨mapGet_mapDel_self u _, ?_, headIsMarker_prune _⟩
    intro f hf p hp hpu
    have hf1 : f ∈ removeId j aq.inFlightEvents := (prune_sublist _).subset hf
    have hf2 : f ∈ aq.inFlightEvents := (removeId_sublist _ _).subset hf1
    have ho := hinv.2.1 f hf2
    obtain ⟨k, ent⟩ := f
    simp only at hp
    subst hp
    simp only [markerOwnedOne, beq_iff_eq] at ho
    rw [hpu, h] at ho
    injection ho with hjk
    have hj : j ∈ idsOf (removeId j aq.inFlightEvents) := by
      have hk : k ∈ idsOf (removeId j aq.inFlightEvents) := mem_idsOf hf1
      rw [hjk.symm] at hk
      exact hk
    exact not_mem_removeId_self j _ hinv.1.1 hj

/-- C3 (amended): on every state reached without re-popping an in-flight
pod, after `done(u)` the UID `u` is no longer in flight, no pod marker for
`u` remains in the timeline, and the timeline head, if any, is a pod
marker (head pruning removes leading cluster-event records).  Cluster-event
records whose objects reference `u` may, however, remain while other pods
are in flight. -/
theorem done_removes_marker_and_prunes (less : Cmp) (q0 : List QueuedPodInfo)
    (hints : Bool) (ops : List Op) (u : Nat)
    (hfresh : freshRun less (newActiveQueue q0 hints) ops = true) :
    mapGet u (done u (run less (newActiveQueue q0 hints) ops)).inFlightPods = none ∧
    (∀ f ∈ (done u (run less (newActiveQueue q0 hints) ops)).inFlightEvents,
      ∀ p, f.2 = Entry.podMarker p → p.uid ≠ u) ∧
    headIsMarker
      (done u (run less (newActiveQueue q0 hints) ops)).inFlightEvents = true :=
  done_purges _ u (run_Inv less ops _ (Inv_init q0 hints) hfresh)

/-- Witness for the amended C3: pop pod A then `done` it; its marker is
gone, nothing is in flight, and the timeline head condition holds. -/
theorem done_removes_marker_and_prunes_witness :
    mapGet 1 (done 1 (run lessP (newActiveQueue [] true)
      [Op.addOrUpdate qpiA, Op.pop])).inFlightPods = none ∧
    (∀ f ∈ (done 1 (run lessP (newActiveQueue [] true)
        [Op.addOrUpdate qpiA, Op.pop])).inFlightEvents,
      ∀ p, f.2 = Entry.podMarker p → p.uid ≠ 1) ∧
    headIsMarker (done 1 (run lessP (newActiveQueue [] true)
      [Op.addOrUpdate qpiA, Op.pop])).inFlightEvents = true :=
  done_removes_marker_and_prunes lessP [] true [Op.addOrUpdate qpiA, Op.pop] 1
    (by decide)

/-- C3 counterexample: with pods A and B both in flight, an event recorded
for A lands after B's marker; `done(A)` removes only A's marker and the
head-pruning stops at B's marker, so a cluster-event record whose objects
have A's UID survives in the timeline — contradicting the claim that after
`done(u)` no timeline entry references `u`. -/
theorem done_leaves_event_counterexample :
    ((run lessP (newActiveQueue [] true)
        [Op.addOrUpdate qpiA, Op.addOrUpdate qpiB, Op.pop, Op.pop,
         Op.addIfPod podA podA 7, Op.done 1]).inFlightEvents).any
      (fun f => match f.2 with
        | Entry.eventRecord c => c.newObj == Obj.podObj podA
        | Entry.podMarker _ => false) = true := by
  decide

end ActiveQueue
